import Mathlib

set_option autoImplicit false

/-!
Verification of the nested-accessor core of `yaml_dotaccess`.

The repository implements two dot-accessible wrappers around a parsed
nested mapping:

* `DotAccessDict` (src/simplenamespace_sample.py): an ordered store
  `_data` mirrored into a `SimpleNamespace`, with a `SafeNone` fallback
  for missing attributes, order-sensitive `__eq__`, and a recursive
  `sort`.
* the Box variant (src/box_sample.py): `create_ordered_box`,
  `sort_ordered_box` and `sort_nested_dictionary` on plain dicts.

We embed the Python value universe shallowly: `DVal` covers the values
these programs manipulate (scalars, plain lists and dicts, Box and
DotAccessDict instances, and `SafeNone` sentinels).  Machine-level
details (hashing, interning) are irrelevant to the code under test.
-/

namespace YamlDot

/--
The universe of Python values the two samples manipulate.

* `null`, `bool`, `int`, `str`: scalars (Python `None` included; the
  YAML configs in the repository use no floats).
* `safeNone id`: a `SafeNone` instance; `id` models object identity
  (each `SafeNone()` call yields a fresh instance, hence a fresh id).
* `pylist` / `pydict`: plain Python list / dict (dicts keep insertion
  order, so a `pydict` is an ordered association list with the keys
  unique in any value a real program builds).
* `node data attrs`: a `DotAccessDict` instance.  `data` is the ordered
  `_data` store (which the constructor mirrors one-to-one into
  `_namespace`, so a single list embeds both); `attrs` is the part of
  the instance `__dict__` written by plain attribute assignment after
  construction.
* `box entries`: a `Box` instance (ordered store).
-/
inductive DVal : Type where
  | null : DVal
  | bool (b : Bool) : DVal
  | int (n : Int) : DVal
  | str (s : String) : DVal
  | safeNone (id : Nat) : DVal
  | pylist (elems : List DVal) : DVal
  | pydict (entries : List (String × DVal)) : DVal
  | node (data : List (String × DVal)) (attrs : List (String × DVal)) : DVal
  | box (entries : List (String × DVal)) : DVal

/-- First-match lookup in an ordered association list (Python dict / namespace
lookup; the first binding wins, as in a dict where keys are unique). -/
def lookupA (es : List (String × DVal)) (k : String) : Option DVal :=
  match es with
  | [] => none
  | (k', v) :: tl => if k' = k then some v else lookupA tl k

/-- Replace the binding of `k` in place, or append it (Python
`d[k] = v` / `setattr` on a `__dict__`: an existing key keeps its
position, a new key goes to the end). -/
def setA (es : List (String × DVal)) (k : String) (v : DVal) : List (String × DVal) :=
  match es with
  | [] => [(k, v)]
  | (k', w) :: tl => if k' = k then (k, v) :: tl else (k', w) :: setA tl k v

mutual

/-- Predicate for values the YAML parser can produce (no accessor
instances, no `SafeNone`): scalars, lists and dicts only. -/
def isData : DVal → Bool
  | .null => true
  | .bool _ => true
  | .int _ => true
  | .str _ => true
  | .safeNone _ => false
  | .pylist l => isDataElems l
  | .pydict es => isDataEntries es
  | .node _ _ => false
  | .box _ => false

/-- All list elements are parser data. -/
def isDataElems : List DVal → Bool
  | [] => true
  | e :: tl => isData e && isDataElems tl

/-- All dict values are parser data. -/
def isDataEntries : List (String × DVal) → Bool
  | [] => true
  | (_, v) :: tl => isData v && isDataEntries tl

end

mutual

/-- Value conversion performed by `DotAccessDict._update_from_dict`
(src/simplenamespace_sample.py lines 42-51): a dict value becomes a
nested `DotAccessDict`; a list value becomes a new list whose dict
elements become `DotAccessDict`s and whose other elements (including
nested lists) are kept as-is; any other value is stored unchanged. -/
def convVal : DVal → DVal
  | .pydict es => .node (convEntries es) []
  | .pylist l => .pylist (convElems l)
  | v => v

/-- The loop of `_update_from_dict` over `data.items()`, in order. -/
def convEntries : List (String × DVal) → List (String × DVal)
  | [] => []
  | (k, v) :: tl => (k, convVal v) :: convEntries tl

/-- The list comprehension in `_update_from_dict` (lines 46-49):
`DotAccessDict(item) if isinstance(item, dict) else item`. -/
def convElems : List DVal → List DVal
  | [] => []
  | e :: tl =>
    (match e with
     | .pydict es => .node (convEntries es) []
     | _ => e) :: convElems tl

end

/-- Constructor `DotAccessDict(data)` (src/simplenamespace_sample.py lines 19-30):
starts from an empty ordered store; `if data:` then
`_update_from_dict(data)`, which returns immediately unless `data` is a
dict.  So any non-dict (or falsy) argument yields an empty accessor,
and a dict argument is loaded in iteration order.  (An empty dict is
falsy, which coincides with loading no entries.) -/
def ofData (d : DVal) : DVal :=
  match d with
  | .pydict es => .node (convEntries es) []
  | _ => .node [] []

/-- Python truthiness of the embedded values (`__bool__`/`__len__`):
`SafeNone.__bool__` returns `False`; `DotAccessDict` defines neither
`__bool__` nor `__len__`, so instances are always truthy; `Box` is a
dict subclass, so it is truthy iff non-empty. -/
def pyTruthy : DVal → Bool
  | .null => false
  | .bool b => b
  | .int n => n != 0
  | .str s => s ≠ ""
  | .safeNone _ => false
  | .pylist l => !l.isEmpty
  | .pydict es => !es.isEmpty
  | .node _ _ => true
  | .box es => !es.isEmpty

/-- What `str(SafeNone())` / `repr(SafeNone())` return
(src/simplenamespace_sample.py lines 171-175). -/
def safeNoneStr (_ : Nat) : String := "None"

/--
One attribute access `v.name`, for the plain (non-dunder, non-method)
segment names the samples traverse.  The second `Nat` argument/result
threads the next fresh `SafeNone` object id.

* On a `DotAccessDict` (lines 55-69): normal lookup finds an instance
  `__dict__` entry first; otherwise `__getattr__` reads
  `getattr(self._namespace, name)`, i.e. the constructor-time store
  (`_data` and `_namespace` hold the same bindings, keyed by the same
  strings); if that fails a fresh `SafeNone()` is returned.
* On a `SafeNone` (lines 168-169): `__getattr__` returns plain `None`.
* On a `Box` built with `default_box=True`: the value of a present key,
  otherwise an empty `Box`.
* On anything else (`None`, scalars, lists, plain dicts): Python raises
  `AttributeError`, modelled as `Except.error ()`.
-/
def getattrV : DVal → String → Nat → Except Unit DVal × Nat
  | .node data attrs, name, c =>
    match lookupA attrs name with
    | some v => (.ok v, c)
    | none =>
      match lookupA data name with
      | some v => (.ok v, c)
      | none => (.ok (.safeNone c), c + 1)
  | .safeNone _, _, c => (.ok .null, c)
  | .box es, name, c =>
    match lookupA es name with
    | some v => (.ok v, c)
    | none => (.ok (.box []), c)
  | _, _, c => (.error (), c)

/-- A chain `v.s1.s2...sn`; an `AttributeError` aborts the chain (the
exception propagates to the caller). -/
def getattrChain : DVal → List String → Nat → Except Unit DVal × Nat
  | v, [], c => (.ok v, c)
  | v, s :: rest, c =>
    match getattrV v s c with
    | (.ok v', c') => getattrChain v' rest c'
    | r => r

/-- Plain attribute assignment `x.p = v` on a `DotAccessDict`.
`DotAccessDict` defines no `__setattr__`, so Python writes the instance
`__dict__` directly: `_data` and `_namespace` are untouched.  Modelled
for attribute names other than the two internal slots `_data` and
`_namespace` (assigning those would replace the internal storage
itself; the claims under test exclude them). -/
def pySetattr : DVal → String → DVal → DVal
  | .node data attrs, p, v => .node data (setA attrs p v)
  | v, _, _ => v

/-- Method `DotAccessDict.keys()` (lines 84-91): the ordered keys of `_data`. -/
def dKeys : DVal → List String
  | .node data _ => data.map Prod.fst
  | _ => []

/-- Method `DotAccessDict.items()` (lines 93-100): the ordered pairs of `_data`. -/
def dItems : DVal → List (String × DVal)
  | .node data _ => data
  | _ => []

/-- Method `DotAccessDict.values()` (lines 102-109): the ordered values of `_data`. -/
def dValues : DVal → List DVal
  | .node data _ => data.map Prod.snd
  | _ => []

/-- The ordered key list of the accessor reached from `v` by the data
path `path` (observation used to state order-preservation claims); it
traverses the ordered store of `DotAccessDict` / `Box` nodes. -/
def keysAt : List String → DVal → Option (List String)
  | [], .node data _ => some (data.map Prod.fst)
  | [], .box es => some (es.map Prod.fst)
  | s :: p, .node data _ =>
    match lookupA data s with
    | some v => keysAt p v
    | none => none
  | s :: p, .box es =>
    match lookupA es s with
    | some v => keysAt p v
    | none => none
  | _, _ => none

/-- The ordered key list of the source sub-mapping reached by `path`
in a parsed (plain dict) structure. -/
def srcKeysAt : List String → DVal → Option (List String)
  | [], .pydict es => some (es.map Prod.fst)
  | s :: p, .pydict es =>
    match lookupA es s with
    | some v => srcKeysAt p v
    | none => none
  | _, _ => none

/-- Keys of an association list are pairwise distinct (looking a key up
past its own binding fails).  True of every store a Python program can
build, since dict keys are unique. -/
def nodupKeysB : List (String × DVal) → Bool
  | [] => true
  | (k, _) :: tl => (lookupA tl k).isNone && nodupKeysB tl

mutual

/--
Python `==` on the embedded values.

* `DotAccessDict.__eq__` (src/simplenamespace_sample.py lines 111-126):
  `False` unless the other operand is a `DotAccessDict` (and the
  reflected comparison also yields `False`, from `NotImplemented` on
  the other built-in type), else `list(self.items()) ==
  list(other.items())` — ordered, element-wise, instance `__dict__`
  extras invisible.
* `SafeNone` defines no `__eq__`, so instances compare by identity.
* plain dicts and `Box` (a dict subclass) compare as dicts:
  order-insensitive key-value equality.
* `True == 1` holds in Python, hence the bool/int cross cases.
-/
def pyEq : DVal → DVal → Bool
  | .node es _, .node fs _ => itemsEq es fs
  | .node _ _, _ => false
  | _, .node _ _ => false
  | .safeNone i, .safeNone j => i == j
  | .safeNone _, _ => false
  | _, .safeNone _ => false
  | .null, .null => true
  | .bool b, .bool c => b == c
  | .bool b, .int n => (if b then (1 : Int) else 0) == n
  | .int n, .bool b => n == (if b then (1 : Int) else 0)
  | .int n, .int m => n == m
  | .str s, .str t => s == t
  | .pylist l, .pylist m => listEq l m
  | .pydict es, .pydict fs => dictEq es fs
  | .pydict es, .box fs => dictEq es fs
  | .box es, .pydict fs => dictEq es fs
  | .box es, .box fs => dictEq es fs
  | _, _ => false
termination_by a b => sizeOf a + sizeOf b

/-- Comparison `list(self.items()) == list(other.items())`: ordered
element-wise comparison of the two stores. -/
def itemsEq : List (String × DVal) → List (String × DVal) → Bool
  | [], [] => true
  | (k, v) :: tl, (k', v') :: tl' => k == k' && pyEq v v' && itemsEq tl tl'
  | _, _ => false
termination_by l1 l2 => sizeOf l1 + sizeOf l2

/-- Python `==` on lists: same length, element-wise. -/
def listEq : List DVal → List DVal → Bool
  | [], [] => true
  | e :: tl, f :: tl' => pyEq e f && listEq tl tl'
  | _, _ => false
termination_by l1 l2 => sizeOf l1 + sizeOf l2

/-- Python `==` on dicts: same size and every binding of the left dict
present (by key) with an equal value in the right one; with unique keys
this is exactly dict equality, which ignores insertion order. -/
def dictEq (es fs : List (String × DVal)) : Bool :=
  es.length == fs.length && dictSub es fs
termination_by sizeOf es + sizeOf fs + 1

def dictSub : List (String × DVal) → List (String × DVal) → Bool
  | [], _ => true
  | (k, v) :: tl, fs =>
    (match h : lookupA fs k with
     | some w => pyEq v w
     | none => false) && dictSub tl fs
termination_by l1 l2 => sizeOf l1 + sizeOf l2
decreasing_by
  · have key : ∀ (L : List (String × DVal)) (k0 : String) (w0 : DVal),
        lookupA L k0 = some w0 → sizeOf w0 < sizeOf L := by
      intro L
      induction L with
      | nil =>
        intro k0 w0 h0
        simp [lookupA] at h0
      | cons hd tl2 ih =>
        intro k0 w0 h0
        obtain ⟨k2, v2⟩ := hd
        simp only [lookupA] at h0
        split at h0
        · simp only [Option.some.injEq] at h0
          subst h0
          simp only [List.cons.sizeOf_spec, Prod.mk.sizeOf_spec]
          omega
        · have := ih _ _ h0
          simp only [List.cons.sizeOf_spec]
          omega
    have hw := key fs k w h
    simp only [List.cons.sizeOf_spec, Prod.mk.sizeOf_spec]
    omega
  · simp only [List.cons.sizeOf_spec, Prod.mk.sizeOf_spec]
    omega

end

/-- Python `<` on strings (lexicographic on code points). -/
def strLtB (a b : String) : Bool := decide (a < b)

/-- The key ordering realised by `sorted(items, reverse=rev)`: the
Python stable sort keeps `a` no later than `b` iff `¬ (b < a)` (ascending);
with `reverse=True`, iff `¬ (a < b)` (descending). -/
def keyLe (rev : Bool) (a b : String) : Bool :=
  if rev then !(strLtB a b) else !(strLtB b a)

/-- Comparison of `(key, value)` items as done by `sorted`: Python
compares the tuples, which compares the keys first and would reach the
values only for equal keys; keys of any one store come from a dict and
are unique, so the key comparison always decides and the embedding
compares keys only. -/
def pairLe (rev : Bool) (a b : String × DVal) : Bool := keyLe rev a.1 b.1

mutual

/-- Method `DotAccessDict.sort(key=None, reverse=rev)`
(src/simplenamespace_sample.py lines 128-155): a brand-new accessor is
built from `sorted(self._data.items(), reverse=rev)`; per entry, a
nested `DotAccessDict` value is recursively sorted, a list value is
rebuilt with its `DotAccessDict` elements recursively sorted and every
other element (nested lists and raw dicts included) carried as-is, and
any other value is carried as-is.  The fresh instance mirrors its store
into a fresh namespace and carries no extra instance attributes. -/
def dsort (rev : Bool) : DVal → DVal
  | .node es _ => .node (dsortEntries rev (List.mergeSort es (pairLe rev))) []
  | v => v
termination_by v => (sizeOf v, 0)
decreasing_by
  apply Prod.Lex.left
  rw [List.Perm.sizeOf_eq_sizeOf (List.mergeSort_perm _ _)]
  simp only [DVal.node.sizeOf_spec]
  omega

/-- The loop `for k, v in sorted_items` (lines 142-153), in order. -/
def dsortEntries (rev : Bool) : List (String × DVal) → List (String × DVal)
  | [] => []
  | (k, v) :: tl => (k, dsortEntryVal rev v) :: dsortEntries rev tl
termination_by l => (sizeOf l, 0)
decreasing_by
  · apply Prod.Lex.left
    simp only [List.cons.sizeOf_spec, Prod.mk.sizeOf_spec]
    omega
  · apply Prod.Lex.left
    simp only [List.cons.sizeOf_spec]
    omega

/-- The per-value branch of that loop (lines 143-151). -/
def dsortEntryVal (rev : Bool) : DVal → DVal
  | .node es attrs => dsort rev (.node es attrs)
  | .pylist l => .pylist (dsortElems rev l)
  | v => v
termination_by v => (sizeOf v, 1)
decreasing_by
  · exact Prod.Lex.right _ Nat.zero_lt_one
  · apply Prod.Lex.left
    simp only [DVal.pylist.sizeOf_spec]
    omega

/-- The list comprehension in `sort` (lines 146-149):
`item.sort(...) if isinstance(item, DotAccessDict) else item`. -/
def dsortElems (rev : Bool) : List DVal → List DVal
  | [] => []
  | e :: tl =>
    (match e with
     | .node es attrs => dsort rev (.node es attrs)
     | _ => e) :: dsortElems rev tl
termination_by l => (sizeOf l, 0)
decreasing_by
  · apply Prod.Lex.left
    simp only [List.cons.sizeOf_spec]
    omega
  · apply Prod.Lex.left
    simp only [List.cons.sizeOf_spec]
    omega

end

mutual

/-- Function `sort_nested_dictionary` (src/box_sample.py lines 21-31): a dict is
rebuilt with every value recursively processed and the resulting items
sorted ascending by `str(key)` (`key=lambda x: str(x[0])`, so only keys
are ever compared); a list is rebuilt with every element recursively
processed (so mappings nested below lists of lists are sorted too);
anything else is returned unchanged. -/
def sort_nested_dictionary : DVal → DVal
  | .pydict es => .pydict (List.mergeSort (sndEntries es) (pairLe false))
  | .pylist l => .pylist (sndElems l)
  | v => v

/-- The comprehension `[(k, sort_nested_dictionary(v)) for k, v in d.items()]`. -/
def sndEntries : List (String × DVal) → List (String × DVal)
  | [] => []
  | (k, v) :: tl => (k, sort_nested_dictionary v) :: sndEntries tl

/-- The comprehension `[sort_nested_dictionary(i) for i in d]`. -/
def sndElems : List DVal → List DVal
  | [] => []
  | e :: tl => sort_nested_dictionary e :: sndElems tl

end

mutual

/-- The conversion `Box(...)` applies to a plain nested structure:
every dict (at any depth, lists included) becomes a `Box`, every list
becomes a converted list, scalars pass through. -/
def boxify : DVal → DVal
  | .pydict es => .box (boxifyEntries es)
  | .pylist l => .pylist (boxifyElems l)
  | v => v

def boxifyEntries : List (String × DVal) → List (String × DVal)
  | [] => []
  | (k, v) :: tl => (k, boxify v) :: boxifyEntries tl

def boxifyElems : List DVal → List DVal
  | [] => []
  | e :: tl => boxify e :: boxifyElems tl

end

/-- Function `create_ordered_box(data)` (src/box_sample.py lines 6-9):
`OrderedDict(sorted(data.items()))` — the top-level items are sorted
ascending (tuple comparison, decided by the unique keys) — then wrapped
as a `Box`.  For any non-mapping argument (`None`, a scalar, a list),
`data.items()` raises `AttributeError`, modelled as `Except.error`. -/
def create_ordered_box (d : DVal) : Except Unit DVal :=
  match d with
  | .pydict es => .ok (.box (boxifyEntries (List.mergeSort es (pairLe false))))
  | _ => .error ()

/-- Adjacent keys are ordered by `le`. -/
def chainKeysLe (le : String → String → Bool) : List String → Bool
  | [] => true
  | [_] => true
  | a :: b :: tl => le a b && chainKeysLe le (b :: tl)

mutual

/-- Every `DotAccessDict` level of the tree has its entries ordered by
`le`: the check recurses exactly through the accessor structure —
nested accessor values and accessor elements of list values — which is
where `DotAccessDict` construction and `sort` place accessors; raw
values carried verbatim (scalars, plain dicts, lists below lists) are
not accessor levels and are unconstrained. -/
def accSorted (le : String → String → Bool) : DVal → Bool
  | .node es _ => chainKeysLe le (es.map Prod.fst) && accSortedEntries le es
  | .pylist l => accSortedElems le l
  | _ => true

def accSortedEntries (le : String → String → Bool) : List (String × DVal) → Bool
  | [] => true
  | (_, v) :: tl => accSorted le v && accSortedEntries le tl

def accSortedElems (le : String → String → Bool) : List DVal → Bool
  | [] => true
  | e :: tl =>
    (match e with
     | .node es attrs => accSorted le (.node es attrs)
     | _ => true) && accSortedElems le tl

end

mutual

/-- Every plain-dict level of the tree (at any depth, through lists of
lists as well) has its entries ordered by `le`. -/
def dictSorted (le : String → String → Bool) : DVal → Bool
  | .pydict es => chainKeysLe le (es.map Prod.fst) && dictSortedEntries le es
  | .pylist l => dictSortedElems le l
  | _ => true

def dictSortedEntries (le : String → String → Bool) : List (String × DVal) → Bool
  | [] => true
  | (_, v) :: tl => dictSorted le v && dictSortedEntries le tl

def dictSortedElems (le : String → String → Bool) : List DVal → Bool
  | [] => true
  | e :: tl => dictSorted le e && dictSortedElems le tl

end

mutual

/-- Every plain dict and every `Box` inside `v` has pairwise-distinct
keys — true of any value a Python program can build, since dict keys
are unique. -/
def wfVal : DVal → Bool
  | .pylist l => wfElems l
  | .pydict es => nodupKeysB es && wfEntries es
  | .node es _ => wfEntries es
  | .box es => nodupKeysB es && wfEntries es
  | _ => true

def wfEntries : List (String × DVal) → Bool
  | [] => true
  | (_, v) :: tl => wfVal v && wfEntries tl

def wfElems : List DVal → Bool
  | [] => true
  | e :: tl => wfVal e && wfElems tl

end

/-!
### Heap model

The frame claim about `sort` — the result is a brand-new instance and
the source object graph is untouched — is about object identity, so we
model it against an explicit heap.  Accessor instances (`DotAccessDict`
in the SimpleNamespace variant, `Box` in the Box variant) live in the
heap as ordered stores addressed by `Nat`; scalars, plain lists and
plain dicts are immutable values (neither sample ever mutates a list or
plain dict in place, so modelling them as values is observationally
faithful).
-/

/-- A heap value: a reference to an accessor object, a scalar, a plain
list, or a plain dict. -/
inductive HVal : Type where
  | ref (a : Nat) : HVal
  | hnull : HVal
  | hbool (b : Bool) : HVal
  | hint (n : Int) : HVal
  | hstr (s : String) : HVal
  | hlist (l : List HVal) : HVal
  | hdict (es : List (String × HVal)) : HVal

/-- The heap: address `a` holds the ordered store of one accessor
object.  Allocation appends. -/
structure Heap : Type where
  objs : List (List (String × HVal))

/-- Item comparison used by `sorted` in the heap model (keys decide,
as in `pairLe`). -/
def hPairLe (rev : Bool) (a b : String × HVal) : Bool := keyLe rev a.1 b.1

mutual

/-- Method `DotAccessDict.sort` on the heap: read the store at `a`, sort its
items, convert each value (recursively sorting referenced accessors and
accessor elements of lists), then allocate the fresh result object.
`fuel` bounds the recursion depth (the heap is not intrinsically
acyclic); `none` means exhaustion or a dangling address. -/
def sortH (rev : Bool) : Nat → Heap → Nat → Option (Heap × Nat)
  | 0, _, _ => none
  | fuel + 1, h, a =>
    match h.objs.get? a with
    | none => none
    | some es =>
      match sortEntriesH rev fuel h (List.mergeSort es (hPairLe rev)) with
      | none => none
      | some (h', es') => some (⟨h'.objs ++ [es']⟩, h'.objs.length)
termination_by fuel _ _ => (fuel, 0)
decreasing_by
  apply Prod.Lex.left
  omega

def sortEntriesH (rev : Bool) : Nat → Heap → List (String × HVal) →
    Option (Heap × List (String × HVal))
  | _, h, [] => some (h, [])
  | fuel, h, (k, v) :: tl =>
    match sortEntryValH rev fuel h v with
    | none => none
    | some (h', v') =>
      match sortEntriesH rev fuel h' tl with
      | none => none
      | some (h'', tl') => some (h'', (k, v') :: tl')
termination_by fuel _ l => (fuel, sizeOf l)
decreasing_by
  · apply Prod.Lex.right
    simp only [List.cons.sizeOf_spec, Prod.mk.sizeOf_spec]
    omega
  · apply Prod.Lex.right
    simp only [List.cons.sizeOf_spec]
    omega

/-- Per-value branch: a referenced accessor is recursively sorted; a
list keeps its order, with referenced accessor elements recursively
sorted and all other elements carried; anything else is carried. -/
def sortEntryValH (rev : Bool) : Nat → Heap → HVal → Option (Heap × HVal)
  | fuel, h, .ref b =>
    match sortH rev fuel h b with
    | none => none
    | some (h', b') => some (h', .ref b')
  | fuel, h, .hlist l =>
    match sortElemsH rev fuel h l with
    | none => none
    | some (h', l') => some (h', .hlist l')
  | _, h, v => some (h, v)
termination_by fuel _ v => (fuel, sizeOf v)
decreasing_by
  · apply Prod.Lex.right
    simp only [HVal.ref.sizeOf_spec]
    omega
  · apply Prod.Lex.right
    simp only [HVal.hlist.sizeOf_spec]
    omega

def sortElemsH (rev : Bool) : Nat → Heap → List HVal → Option (Heap × List HVal)
  | _, h, [] => some (h, [])
  | fuel, h, e :: tl =>
    match (match e with
           | .ref b =>
             match sortH rev fuel h b with
             | none => none
             | some (h', b') => some (h', HVal.ref b')
           | _ => some (h, e) : Option (Heap × HVal)) with
    | none => none
    | some (h', e') =>
      match sortElemsH rev fuel h' tl with
      | none => none
      | some (h'', tl') => some (h'', e' :: tl')
termination_by fuel _ l => (fuel, sizeOf l)
decreasing_by
  · apply Prod.Lex.right
    simp only [List.cons.sizeOf_spec]
    omega
  · apply Prod.Lex.right
    simp only [List.cons.sizeOf_spec]
    omega

end

mutual

/-- Method `Box.to_dict()` on the heap: a read-only conversion of the object
graph below one heap value into a plain structure. -/
def toDictValH : Nat → Heap → HVal → Option DVal
  | _, _, .hnull => some .null
  | _, _, .hbool b => some (.bool b)
  | _, _, .hint n => some (.int n)
  | _, _, .hstr s => some (.str s)
  | fuel, h, .hlist l => (toDictElemsH fuel h l).map .pylist
  | fuel, h, .hdict es => (toDictEntriesH fuel h es).map .pydict
  | 0, _, .ref _ => none
  | fuel + 1, h, .ref a =>
    match h.objs.get? a with
    | none => none
    | some es => (toDictEntriesH fuel h es).map .pydict
termination_by fuel _ v => (fuel, sizeOf v)
decreasing_by
  · apply Prod.Lex.right
    simp only [HVal.hlist.sizeOf_spec]
    omega
  · apply Prod.Lex.right
    simp only [HVal.hdict.sizeOf_spec]
    omega
  · apply Prod.Lex.left
    omega

def toDictEntriesH : Nat → Heap → List (String × HVal) →
    Option (List (String × DVal))
  | _, _, [] => some []
  | fuel, h, (k, v) :: tl =>
    match toDictValH fuel h v with
    | none => none
    | some d =>
      match toDictEntriesH fuel h tl with
      | none => none
      | some ds => some ((k, d) :: ds)
termination_by fuel _ l => (fuel, sizeOf l)
decreasing_by
  · apply Prod.Lex.right
    simp only [List.cons.sizeOf_spec, Prod.mk.sizeOf_spec]
    omega
  · apply Prod.Lex.right
    simp only [List.cons.sizeOf_spec]
    omega

def toDictElemsH : Nat → Heap → List HVal → Option (List DVal)
  | _, _, [] => some []
  | fuel, h, e :: tl =>
    match toDictValH fuel h e with
    | none => none
    | some d =>
      match toDictElemsH fuel h tl with
      | none => none
      | some ds => some (d :: ds)
termination_by fuel _ l => (fuel, sizeOf l)
decreasing_by
  · apply Prod.Lex.right
    simp only [List.cons.sizeOf_spec]
    omega
  · apply Prod.Lex.right
    simp only [List.cons.sizeOf_spec]
    omega

end

mutual

/-- Conversion `Box(plain_structure)` on the heap: allocate a fresh `Box` object
for every dict of the plain structure; `none` on a value the plain
structure cannot contain. -/
def allocBoxVal : Heap → DVal → Option (Heap × HVal)
  | h, .null => some (h, .hnull)
  | h, .bool b => some (h, .hbool b)
  | h, .int n => some (h, .hint n)
  | h, .str s => some (h, .hstr s)
  | h, .pylist l =>
    match allocBoxElems h l with
    | none => none
    | some (h', l') => some (h', .hlist l')
  | h, .pydict es =>
    match allocBoxEntries h es with
    | none => none
    | some (h', es') => some (⟨h'.objs ++ [es']⟩, .ref h'.objs.length)
  | _, _ => none

def allocBoxEntries : Heap → List (String × DVal) →
    Option (Heap × List (String × HVal))
  | h, [] => some (h, [])
  | h, (k, v) :: tl =>
    match allocBoxVal h v with
    | none => none
    | some (h', v') =>
      match allocBoxEntries h' tl with
      | none => none
      | some (h'', tl') => some (h'', (k, v') :: tl')

def allocBoxElems : Heap → List DVal → Option (Heap × List HVal)
  | h, [] => some (h, [])
  | h, e :: tl =>
    match allocBoxVal h e with
    | none => none
    | some (h', e') =>
      match allocBoxElems h' tl with
      | none => none
      | some (h'', tl') => some (h'', e' :: tl')

end

/-- Function `sort_ordered_box(box)` (src/box_sample.py lines 12-18) on the heap:
`box.to_dict()` (read-only), `sort_nested_dictionary` (pure), then
`Box(sorted_dict, default_box=True)` (fresh allocation). -/
def sort_ordered_boxH (fuel : Nat) (h : Heap) (a : Nat) : Option (Heap × Nat) :=
  match toDictValH fuel h (.ref a) with
  | none => none
  | some d =>
    match allocBoxVal h (sort_nested_dictionary d) with
    | some (h', .ref b) => some (h', b)
    | _ => none

/-- Predicate for a Python mapping (plain dict). -/
def isPydictB : DVal → Bool
  | .pydict _ => true
  | _ => false

/-- Predicate for a `DotAccessDict` instance (the `isinstance` test of
`__eq__`). -/
def isNodeB : DVal → Bool
  | .node _ _ => true
  | _ => false

/-! ### Helper lemmas -/

theorem lookupA_setA_self (es : List (String × DVal)) (k : String) (v : DVal) :
    lookupA (setA es k v) k = some v := by
  induction es with
  | nil => simp [setA, lookupA]
  | cons hd tl ih =>
    obtain ⟨k', w⟩ := hd
    by_cases hk : k' = k
    · simp [setA, hk, lookupA]
    · simp [setA, hk, lookupA, ih]

theorem lookupA_sizeOf_lt {es : List (String × DVal)} {k : String} {v : DVal}
    (h : lookupA es k = some v) : sizeOf v < sizeOf es := by
  induction es with
  | nil => simp [lookupA] at h
  | cons hd tl ih =>
    obtain ⟨k2, v2⟩ := hd
    simp only [lookupA] at h
    split at h
    · simp only [Option.some.injEq] at h
      subst h
      simp only [List.cons.sizeOf_spec, Prod.mk.sizeOf_spec]
      omega
    · have := ih h
      simp only [List.cons.sizeOf_spec]
      omega

theorem isData_of_lookupA {es : List (String × DVal)} {k : String} {v : DVal}
    (hes : isDataEntries es = true) (h : lookupA es k = some v) : isData v = true := by
  induction es with
  | nil => simp [lookupA] at h
  | cons hd tl ih =>
    obtain ⟨k2, v2⟩ := hd
    simp only [isDataEntries, Bool.and_eq_true] at hes
    simp only [lookupA] at h
    split at h
    · simp only [Option.some.injEq] at h
      subst h
      exact hes.1
    · exact ih hes.2 h

theorem convEntries_keys (es : List (String × DVal)) :
    (convEntries es).map Prod.fst = es.map Prod.fst := by
  induction es with
  | nil => rfl
  | cons hd tl ih =>
    obtain ⟨k, v⟩ := hd
    simp [convEntries, ih]

theorem lookupA_convEntries (es : List (String × DVal)) (s : String) :
    lookupA (convEntries es) s = (lookupA es s).map convVal := by
  induction es with
  | nil => rfl
  | cons hd tl ih =>
    obtain ⟨k, v⟩ := hd
    by_cases hk : k = s
    · simp [convEntries, lookupA, hk]
    · simp [convEntries, lookupA, hk, ih]

theorem boxifyEntries_keys (es : List (String × DVal)) :
    (boxifyEntries es).map Prod.fst = es.map Prod.fst := by
  induction es with
  | nil => rfl
  | cons hd tl ih =>
    obtain ⟨k, v⟩ := hd
    simp [boxifyEntries, ih]

theorem lookupA_boxifyEntries (es : List (String × DVal)) (s : String) :
    lookupA (boxifyEntries es) s = (lookupA es s).map boxify := by
  induction es with
  | nil => rfl
  | cons hd tl ih =>
    obtain ⟨k, v⟩ := hd
    by_cases hk : k = s
    · simp [boxifyEntries, lookupA, hk]
    · simp [boxifyEntries, lookupA, hk, ih]

theorem lookupA_isSome_of_mem {es : List (String × DVal)} {k : String} {v : DVal}
    (h : (k, v) ∈ es) : ∃ w, lookupA es k = some w := by
  induction es with
  | nil => simp at h
  | cons hd tl ih =>
    obtain ⟨k2, v2⟩ := hd
    by_cases hk : k2 = k
    · exact ⟨v2, by simp [lookupA, hk]⟩
    · rcases List.mem_cons.mp h with h0 | h0
      · cases h0
        exact absurd rfl hk
      · rcases ih h0 with ⟨w, hw⟩
        exact ⟨w, by simp [lookupA, hk, hw]⟩

theorem mem_of_lookupA {es : List (String × DVal)} {k : String} {v : DVal}
    (h : lookupA es k = some v) : (k, v) ∈ es := by
  induction es with
  | nil => simp [lookupA] at h
  | cons hd tl ih =>
    obtain ⟨k2, v2⟩ := hd
    simp only [lookupA] at h
    split at h
    · simp only [Option.some.injEq] at h
      subst h
      rename_i hk
      subst hk
      exact List.mem_cons_self _ _
    · exact List.mem_cons_of_mem _ (ih h)

theorem lookupA_eq_none_iff {es : List (String × DVal)} {k : String} :
    lookupA es k = none ↔ k ∉ es.map Prod.fst := by
  induction es with
  | nil => simp [lookupA]
  | cons hd tl ih =>
    obtain ⟨k2, v2⟩ := hd
    by_cases hk : k2 = k
    · subst hk
      simp [lookupA]
    · simp [lookupA, hk, ih, Ne.symm hk]

theorem nodupKeysB_iff {es : List (String × DVal)} :
    nodupKeysB es = true ↔ (es.map Prod.fst).Nodup := by
  induction es with
  | nil => simp [nodupKeysB]
  | cons hd tl ih =>
    obtain ⟨k2, v2⟩ := hd
    simp only [nodupKeysB, Bool.and_eq_true, Option.isNone_iff_eq_none,
      List.map_cons, List.nodup_cons, ih, lookupA_eq_none_iff]

theorem lookupA_eq_some_of_mem {es : List (String × DVal)} {k : String} {v : DVal}
    (hnd : nodupKeysB es = true) (h : (k, v) ∈ es) : lookupA es k = some v := by
  induction es with
  | nil => simp at h
  | cons hd tl ih =>
    obtain ⟨k2, v2⟩ := hd
    simp only [nodupKeysB, Bool.and_eq_true, Option.isNone_iff_eq_none] at hnd
    rcases List.mem_cons.mp h with h0 | h0
    · cases h0
      simp [lookupA]
    · by_cases hk : k2 = k
      · subst hk
        rcases lookupA_isSome_of_mem h0 with ⟨w, hw⟩
        rw [hnd.1] at hw
        cases hw
      · simp [lookupA, hk, ih hnd.2 h0]

/-- With unique keys, first-match lookup is invariant under permutation
of the bindings. -/
theorem lookupA_eq_of_perm {es fs : List (String × DVal)} (hp : es.Perm fs)
    (hnd : nodupKeysB es = true) (k : String) : lookupA es k = lookupA fs k := by
  have hndf : nodupKeysB fs = true := by
    rw [nodupKeysB_iff]
    exact ((hp.map Prod.fst).nodup_iff).mp (nodupKeysB_iff.mp hnd)
  cases hv : lookupA es k with
  | some v =>
    exact (lookupA_eq_some_of_mem hndf (hp.mem_iff.mp (mem_of_lookupA hv))).symm
  | none =>
    cases hw : lookupA fs k with
    | some w =>
      have : (k, w) ∈ es := hp.mem_iff.mpr (mem_of_lookupA hw)
      rcases lookupA_isSome_of_mem this with ⟨u, hu⟩
      rw [hv] at hu
      cases hu
    | none => rfl

/-- Reading back any path of a freshly constructed `DotAccessDict`
shows exactly the key order of the corresponding source sub-mapping. -/
theorem keysAt_convVal : ∀ (n : Nat) (v : DVal), sizeOf v ≤ n → isData v = true →
    ∀ p, keysAt p (convVal v) = srcKeysAt p v := by
  intro n
  induction n using Nat.strong_induction_on with
  | _ n ih =>
    intro v hn hv p
    match v with
    | .null | .bool _ | .int _ | .str _ =>
      cases p <;> simp [convVal, keysAt, srcKeysAt]
    | .safeNone _ => simp [isData] at hv
    | .node _ _ => simp [isData] at hv
    | .box _ => simp [isData] at hv
    | .pylist l =>
      cases p <;> simp [convVal, keysAt, srcKeysAt]
    | .pydict es =>
      cases p with
      | nil => simp [convVal, keysAt, srcKeysAt, convEntries_keys]
      | cons s p2 =>
        have hes : isDataEntries es = true := by simpa [isData] using hv
        simp only [convVal, keysAt, srcKeysAt, lookupA_convEntries]
        cases hl : lookupA es s with
        | none => simp
        | some w =>
          simp only [Option.map_some']
          have hw : sizeOf w < sizeOf es := lookupA_sizeOf_lt hl
          have hsz : sizeOf es < n := by
            have : sizeOf (DVal.pydict es) = 1 + sizeOf es := by
              simp [DVal.pydict.sizeOf_spec]
            omega
          exact ih (sizeOf w) (by omega) w (le_refl _) (isData_of_lookupA hes hl) p2

/-- Reading back any nested path below a `Box`-converted value shows
exactly the key order of the corresponding source sub-mapping. -/
theorem keysAt_boxify : ∀ (n : Nat) (v : DVal), sizeOf v ≤ n → isData v = true →
    ∀ p, keysAt p (boxify v) = srcKeysAt p v := by
  intro n
  induction n using Nat.strong_induction_on with
  | _ n ih =>
    intro v hn hv p
    match v with
    | .null | .bool _ | .int _ | .str _ =>
      cases p <;> simp [boxify, keysAt, srcKeysAt]
    | .safeNone _ => simp [isData] at hv
    | .node _ _ => simp [isData] at hv
    | .box _ => simp [isData] at hv
    | .pylist l =>
      cases p <;> simp [boxify, keysAt, srcKeysAt]
    | .pydict es =>
      cases p with
      | nil => simp [boxify, keysAt, srcKeysAt, boxifyEntries_keys]
      | cons s p2 =>
        have hes : isDataEntries es = true := by simpa [isData] using hv
        simp only [boxify, keysAt, srcKeysAt, lookupA_boxifyEntries]
        cases hl : lookupA es s with
        | none => simp
        | some w =>
          simp only [Option.map_some']
          have hw : sizeOf w < sizeOf es := lookupA_sizeOf_lt hl
          have hsz : sizeOf es < n := by
            have : sizeOf (DVal.pydict es) = 1 + sizeOf es := by
              simp [DVal.pydict.sizeOf_spec]
            omega
          exact ih (sizeOf w) (by omega) w (le_refl _) (isData_of_lookupA hes hl) p2

theorem keyLe_trans (rev : Bool) (a b c : String)
    (h1 : keyLe rev a b = true) (h2 : keyLe rev b c = true) : keyLe rev a c = true := by
  cases rev <;> simp [keyLe, strLtB, not_lt] at h1 h2 ⊢
  · exact le_trans h1 h2
  · exact le_trans h2 h1

theorem keyLe_total (rev : Bool) (a b : String) :
    (keyLe rev a b || keyLe rev b a) = true := by
  cases rev <;> simp [keyLe, strLtB, not_lt]
  · exact le_total a.data b.data
  · exact le_total b.data a.data

theorem pairLe_trans (rev : Bool) (a b c : String × DVal)
    (h1 : pairLe rev a b = true) (h2 : pairLe rev b c = true) : pairLe rev a c = true :=
  keyLe_trans rev a.1 b.1 c.1 h1 h2

theorem pairLe_total (rev : Bool) (a b : String × DVal) :
    (pairLe rev a b || pairLe rev b a) = true :=
  keyLe_total rev a.1 b.1

theorem chainKeysLe_of_pairwise {le : String → String → Bool} :
    ∀ (ks : List String), List.Pairwise (fun a b => le a b = true) ks →
      chainKeysLe le ks = true := by
  intro ks
  induction ks with
  | nil => intro _; rfl
  | cons a l ih =>
    intro h
    cases l with
    | nil => rfl
    | cons b tl =>
      have h1 := List.rel_of_pairwise_cons h (List.mem_cons_self b tl)
      have h2 := (List.pairwise_cons.mp h).2
      simp [chainKeysLe, h1, ih h2]

/-- The items of `sorted(es, reverse=rev)` are pairwise ordered. -/
theorem pairwise_mergeSort_pairLe (rev : Bool) (es : List (String × DVal)) :
    List.Pairwise (fun a b => pairLe rev a b = true) (List.mergeSort es (pairLe rev)) :=
  List.sorted_mergeSort (fun a b c => pairLe_trans rev a b c)
    (fun a b => pairLe_total rev a b) es

theorem dsortEntries_eq_map (rev : Bool) (L : List (String × DVal)) :
    dsortEntries rev L = L.map (fun p => (p.1, dsortEntryVal rev p.2)) := by
  induction L with
  | nil => simp [dsortEntries]
  | cons hd tl ih =>
    obtain ⟨k, v⟩ := hd
    simp [dsortEntries, ih]

theorem dsortElems_eq_map (rev : Bool) (l : List DVal) :
    dsortElems rev l = l.map (fun e =>
      match e with
      | .node es attrs => dsort rev (.node es attrs)
      | _ => e) := by
  induction l with
  | nil => simp [dsortElems]
  | cons e tl ih => cases e <;> simp [dsortElems, ih]

theorem accSortedEntries_iff (le : String → String → Bool) (L : List (String × DVal)) :
    accSortedEntries le L = true ↔ ∀ p ∈ L, accSorted le p.2 = true := by
  induction L with
  | nil => simp [accSortedEntries]
  | cons hd tl ih =>
    obtain ⟨k, v⟩ := hd
    simp [accSortedEntries, ih]

theorem accSortedElems_iff (le : String → String → Bool) (l : List DVal) :
    accSortedElems le l = true ↔ ∀ e ∈ l,
      (match e with
       | .node es attrs => accSorted le (.node es attrs)
       | _ => true) = true := by
  induction l with
  | nil => simp [accSortedElems]
  | cons e tl ih => cases e <;> simp [accSortedElems, ih]

theorem dictSortedEntries_iff (le : String → String → Bool) (L : List (String × DVal)) :
    dictSortedEntries le L = true ↔ ∀ p ∈ L, dictSorted le p.2 = true := by
  induction L with
  | nil => simp [dictSortedEntries]
  | cons hd tl ih =>
    obtain ⟨k, v⟩ := hd
    simp [dictSortedEntries, ih]

theorem dictSortedElems_iff (le : String → String → Bool) (l : List DVal) :
    dictSortedElems le l = true ↔ ∀ e ∈ l, dictSorted le e = true := by
  induction l with
  | nil => simp [dictSortedElems]
  | cons e tl ih => simp [dictSortedElems, ih]

theorem sndEntries_eq_map (L : List (String × DVal)) :
    sndEntries L = L.map (fun p => (p.1, sort_nested_dictionary p.2)) := by
  induction L with
  | nil => simp [sndEntries]
  | cons hd tl ih =>
    obtain ⟨k, v⟩ := hd
    simp [sndEntries, ih]

theorem sndElems_eq_map (l : List DVal) :
    sndElems l = l.map sort_nested_dictionary := by
  induction l with
  | nil => simp [sndElems]
  | cons e tl ih => simp [sndElems, ih]

/-- Every value placed by the per-entry conversion of `sort` is sorted
at all its accessor levels. -/
theorem accSorted_dsortEntryVal : ∀ (n : Nat) (v : DVal), sizeOf v ≤ n → ∀ (rev : Bool),
    accSorted (keyLe rev) (dsortEntryVal rev v) = true := by
  intro n
  induction n using Nat.strong_induction_on with
  | _ n ih =>
    intro v hn rev
    match v with
    | .null | .bool _ | .int _ | .str _ | .safeNone _ | .pydict _ | .box _ =>
      simp [dsortEntryVal, accSorted]
    | .node es attrs =>
      have hsz : sizeOf es < n := by
        have : sizeOf (DVal.node es attrs) = 1 + sizeOf es + sizeOf attrs := by
          simp [DVal.node.sizeOf_spec]
        omega
      simp only [dsortEntryVal, dsort, accSorted, Bool.and_eq_true]
      constructor
      · rw [dsortEntries_eq_map]
        have hkeys : ((List.mergeSort es (pairLe rev)).map
            (fun p => (p.1, dsortEntryVal rev p.2))).map Prod.fst =
            (List.mergeSort es (pairLe rev)).map Prod.fst := by
          simp [List.map_map, Function.comp]
        rw [hkeys]
        exact chainKeysLe_of_pairwise _
          ((pairwise_mergeSort_pairLe rev es).map Prod.fst (fun a b h => h))
      · rw [accSortedEntries_iff, dsortEntries_eq_map]
        intro p hp
        rcases List.mem_map.mp hp with ⟨q, hq, rfl⟩
        have hq2 : q ∈ es := List.mem_mergeSort.mp hq
        have h1 : sizeOf q < sizeOf es := List.sizeOf_lt_of_mem hq2
        have h2 : sizeOf q.2 ≤ sizeOf q := by
          obtain ⟨a, b⟩ := q
          simp only [Prod.mk.sizeOf_spec]
          omega
        exact ih (sizeOf q.2) (by omega) q.2 (le_refl _) rev
    | .pylist l =>
      have hsz : sizeOf l < n := by
        have : sizeOf (DVal.pylist l) = 1 + sizeOf l := by
          simp [DVal.pylist.sizeOf_spec]
        omega
      simp only [dsortEntryVal, accSorted]
      rw [accSortedElems_iff, dsortElems_eq_map]
      intro e he
      rcases List.mem_map.mp he with ⟨f, hf, rfl⟩
      have h1 : sizeOf f < sizeOf l := List.sizeOf_lt_of_mem hf
      match f with
      | .node fes fattrs =>
        have h3 : accSorted (keyLe rev) (dsortEntryVal rev (.node fes fattrs)) = true :=
          ih (sizeOf (DVal.node fes fattrs)) (by omega) _ (le_refl _) rev
        simp only [dsortEntryVal, dsort] at h3 ⊢
        exact h3
      | .null | .bool _ | .int _ | .str _ | .safeNone _ | .pylist _
      | .pydict _ | .box _ => simp

/-- Every value produced by `sort_nested_dictionary` is sorted at all
its plain-dict levels. -/
theorem dictSorted_snd : ∀ (n : Nat) (v : DVal), sizeOf v ≤ n →
    dictSorted (keyLe false) (sort_nested_dictionary v) = true := by
  intro n
  induction n using Nat.strong_induction_on with
  | _ n ih =>
    intro v hn
    match v with
    | .null | .bool _ | .int _ | .str _ | .safeNone _ | .node _ _ | .box _ =>
      simp [sort_nested_dictionary, dictSorted]
    | .pydict es =>
      have hsz : sizeOf es < n := by
        have : sizeOf (DVal.pydict es) = 1 + sizeOf es := by
          simp [DVal.pydict.sizeOf_spec]
        omega
      simp only [sort_nested_dictionary, dictSorted, Bool.and_eq_true]
      constructor
      · exact chainKeysLe_of_pairwise _
          ((pairwise_mergeSort_pairLe false (sndEntries es)).map Prod.fst
            (fun a b h => h))
      · rw [dictSortedEntries_iff]
        intro p hp
        have hp2 : p ∈ sndEntries es := List.mem_mergeSort.mp hp
        rw [sndEntries_eq_map] at hp2
        rcases List.mem_map.mp hp2 with ⟨q, hq, rfl⟩
        have h1 : sizeOf q < sizeOf es := List.sizeOf_lt_of_mem hq
        have h2 : sizeOf q.2 ≤ sizeOf q := by
          obtain ⟨a, b⟩ := q
          simp only [Prod.mk.sizeOf_spec]
          omega
        exact ih (sizeOf q.2) (by omega) q.2 (le_refl _)
    | .pylist l =>
      have hsz : sizeOf l < n := by
        have : sizeOf (DVal.pylist l) = 1 + sizeOf l := by
          simp [DVal.pylist.sizeOf_spec]
        omega
      simp only [sort_nested_dictionary, dictSorted]
      rw [dictSortedElems_iff, sndElems_eq_map]
      intro e he
      rcases List.mem_map.mp he with ⟨f, hf, rfl⟩
      have h1 : sizeOf f < sizeOf l := List.sizeOf_lt_of_mem hf
      exact ih (sizeOf f) (by omega) f (le_refl _)

/-- The item comparison of `__eq__` is exactly element-wise equality of
the ordered `(key, value)` sequences. -/
theorem itemsEq_iff (es : List (String × DVal)) :
    ∀ fs, itemsEq es fs = true ↔
      List.Forall₂ (fun p q : String × DVal => p.1 = q.1 ∧ pyEq p.2 q.2 = true) es fs := by
  induction es with
  | nil =>
    intro fs
    cases fs with
    | nil => simp [itemsEq]
    | cons hd tl => simp [itemsEq]
  | cons hd tl ih =>
    intro fs
    obtain ⟨k, v⟩ := hd
    cases fs with
    | nil => simp [itemsEq]
    | cons hd2 tl2 =>
      obtain ⟨k2, v2⟩ := hd2
      simp [itemsEq, ih, List.forall₂_cons, and_assoc]

theorem dsortEntries_keys (rev : Bool) (L : List (String × DVal)) :
    (dsortEntries rev L).map Prod.fst = L.map Prod.fst := by
  rw [dsortEntries_eq_map]
  simp [List.map_map, Function.comp]

/-- The per-entry conversion of `sort` keeps keys, hence keeps items
pairwise ordered. -/
theorem pairwise_dsortEntries (rev : Bool) (L : List (String × DVal))
    (h : List.Pairwise (fun a b => pairLe rev a b = true) L) :
    List.Pairwise (fun a b => pairLe rev a b = true) (dsortEntries rev L) := by
  rw [dsortEntries_eq_map, List.pairwise_map]
  exact h.imp (fun hab => hab)

theorem listEq_iff (l : List DVal) :
    ∀ m, listEq l m = true ↔ List.Forall₂ (fun a b => pyEq a b = true) l m := by
  induction l with
  | nil =>
    intro m
    cases m with
    | nil => simp [listEq]
    | cons hd tl => simp [listEq]
  | cons e tl ih =>
    intro m
    cases m with
    | nil => simp [listEq]
    | cons f tl2 => simp [listEq, ih, List.forall₂_cons]

theorem wfEntries_iff (L : List (String × DVal)) :
    wfEntries L = true ↔ ∀ p ∈ L, wfVal p.2 = true := by
  induction L with
  | nil => simp [wfEntries]
  | cons hd tl ih =>
    obtain ⟨k, v⟩ := hd
    simp [wfEntries, ih]

theorem wfElems_iff (l : List DVal) :
    wfElems l = true ↔ ∀ e ∈ l, wfVal e = true := by
  induction l with
  | nil => simp [wfElems]
  | cons e tl ih => simp [wfElems, ih]

theorem dictSub_of_lookup (fs : List (String × DVal)) :
    ∀ L, (∀ p ∈ L, lookupA fs p.1 = some p.2) →
      (∀ p ∈ L, pyEq p.2 p.2 = true) → dictSub L fs = true := by
  intro L
  induction L with
  | nil => intro _ _; simp [dictSub]
  | cons hd tl ih =>
    intro h1 h2
    obtain ⟨k, v⟩ := hd
    have hl := h1 (k, v) (List.mem_cons_self _ _)
    have hv := h2 (k, v) (List.mem_cons_self _ _)
    simp only [dictSub, Bool.and_eq_true]
    constructor
    · split
      · rename_i w hw
        rw [hl] at hw
        cases hw
        exact hv
      · rename_i hw
        rw [hl] at hw
        cases hw
    · exact ih (fun p hp => h1 p (List.mem_cons_of_mem _ hp))
        (fun p hp => h2 p (List.mem_cons_of_mem _ hp))

/-- Python `==` is reflexive on every well-formed value (the dict case
needs unique keys, which Python guarantees). -/
theorem pyEq_refl : ∀ (n : Nat) (v : DVal), sizeOf v ≤ n → wfVal v = true →
    pyEq v v = true := by
  intro n
  induction n using Nat.strong_induction_on with
  | _ n ih =>
    intro v hn hv
    match v with
    | .null => simp [pyEq]
    | .bool b => simp [pyEq]
    | .int m => simp [pyEq]
    | .str s => simp [pyEq]
    | .safeNone i => simp [pyEq]
    | .node es attrs =>
      have hes : wfEntries es = true := by simpa [wfVal] using hv
      have hsz : sizeOf es < n := by
        have : sizeOf (DVal.node es attrs) = 1 + sizeOf es + sizeOf attrs := by
          simp [DVal.node.sizeOf_spec]
        omega
      simp only [pyEq, itemsEq_iff, List.forall₂_same]
      intro p hp
      refine ⟨by trivial, ?_⟩
      have h1 : sizeOf p < sizeOf es := List.sizeOf_lt_of_mem hp
      have h2 : sizeOf p.2 ≤ sizeOf p := by
        obtain ⟨a, b⟩ := p
        simp only [Prod.mk.sizeOf_spec]
        omega
      exact ih (sizeOf p.2) (by omega) p.2 (le_refl _)
        ((wfEntries_iff es).mp hes p hp)
    | .pylist l =>
      have hl : wfElems l = true := by simpa [wfVal] using hv
      have hsz : sizeOf l < n := by
        have : sizeOf (DVal.pylist l) = 1 + sizeOf l := by
          simp [DVal.pylist.sizeOf_spec]
        omega
      simp only [pyEq, listEq_iff, List.forall₂_same]
      intro e he
      have h1 : sizeOf e < sizeOf l := List.sizeOf_lt_of_mem he
      exact ih (sizeOf e) (by omega) e (le_refl _) ((wfElems_iff l).mp hl e he)
    | .pydict es =>
      have hnd : nodupKeysB es = true := by
        have := hv
        simp only [wfVal, Bool.and_eq_true] at this
        exact this.1
      have hes : wfEntries es = true := by
        have := hv
        simp only [wfVal, Bool.and_eq_true] at this
        exact this.2
      have hsz : sizeOf es < n := by
        have : sizeOf (DVal.pydict es) = 1 + sizeOf es := by
          simp [DVal.pydict.sizeOf_spec]
        omega
      simp only [pyEq, dictEq, Bool.and_eq_true, beq_self_eq_true, true_and]
      refine dictSub_of_lookup es es (fun p hp => ?_) (fun p hp => ?_)
      · obtain ⟨k, w⟩ := p
        exact lookupA_eq_some_of_mem hnd hp
      · have h1 : sizeOf p < sizeOf es := List.sizeOf_lt_of_mem hp
        have h2 : sizeOf p.2 ≤ sizeOf p := by
          obtain ⟨a, b⟩ := p
          simp only [Prod.mk.sizeOf_spec]
          omega
        exact ih (sizeOf p.2) (by omega) p.2 (le_refl _)
          ((wfEntries_iff es).mp hes p hp)
    | .box es =>
      have hnd : nodupKeysB es = true := by
        have := hv
        simp only [wfVal, Bool.and_eq_true] at this
        exact this.1
      have hes : wfEntries es = true := by
        have := hv
        simp only [wfVal, Bool.and_eq_true] at this
        exact this.2
      have hsz : sizeOf es < n := by
        have : sizeOf (DVal.box es) = 1 + sizeOf es := by
          simp [DVal.box.sizeOf_spec]
        omega
      simp only [pyEq, dictEq, Bool.and_eq_true, beq_self_eq_true, true_and]
      refine dictSub_of_lookup es es (fun p hp => ?_) (fun p hp => ?_)
      · obtain ⟨k, w⟩ := p
        exact lookupA_eq_some_of_mem hnd hp
      · have h1 : sizeOf p < sizeOf es := List.sizeOf_lt_of_mem hp
        have h2 : sizeOf p.2 ≤ sizeOf p := by
          obtain ⟨a, b⟩ := p
          simp only [Prod.mk.sizeOf_spec]
          omega
        exact ih (sizeOf p.2) (by omega) p.2 (le_refl _)
          ((wfEntries_iff es).mp hes p hp)

/-- Sorting preserves well-formedness (it only reorders node entries
and copies everything else). -/
theorem wf_dsortEntryVal : ∀ (n : Nat) (v : DVal), sizeOf v ≤ n → ∀ (rev : Bool),
    wfVal v = true → wfVal (dsortEntryVal rev v) = true := by
  intro n
  induction n using Nat.strong_induction_on with
  | _ n ih =>
    intro v hn rev hv
    match v with
    | .null | .bool _ | .int _ | .str _ | .safeNone _ | .pydict _ | .box _ =>
      simpa [dsortEntryVal] using hv
    | .node es attrs =>
      have hes : wfEntries es = true := by simpa [wfVal] using hv
      have hsz : sizeOf es < n := by
        have : sizeOf (DVal.node es attrs) = 1 + sizeOf es + sizeOf attrs := by
          simp [DVal.node.sizeOf_spec]
        omega
      simp only [dsortEntryVal, dsort, wfVal, wfEntries_iff, dsortEntries_eq_map]
      intro p hp
      rcases List.mem_map.mp hp with ⟨q, hq, rfl⟩
      have hq2 : q ∈ es := List.mem_mergeSort.mp hq
      have h1 : sizeOf q < sizeOf es := List.sizeOf_lt_of_mem hq2
      have h2 : sizeOf q.2 ≤ sizeOf q := by
        obtain ⟨a, b⟩ := q
        simp only [Prod.mk.sizeOf_spec]
        omega
      exact ih (sizeOf q.2) (by omega) q.2 (le_refl _) rev
        ((wfEntries_iff es).mp hes q hq2)
    | .pylist l =>
      have hl : wfElems l = true := by simpa [wfVal] using hv
      have hsz : sizeOf l < n := by
        have : sizeOf (DVal.pylist l) = 1 + sizeOf l := by
          simp [DVal.pylist.sizeOf_spec]
        omega
      simp only [dsortEntryVal, wfVal, wfElems_iff, dsortElems_eq_map]
      intro e he
      rcases List.mem_map.mp he with ⟨f, hf, rfl⟩
      have h1 : sizeOf f < sizeOf l := List.sizeOf_lt_of_mem hf
      have hwf := (wfElems_iff l).mp hl f hf
      match f with
      | .node fes fattrs =>
        have h3 := ih (sizeOf (DVal.node fes fattrs)) (by omega)
          (.node fes fattrs) (le_refl _) rev hwf
        simpa [dsortEntryVal] using h3
      | .null | .bool _ | .int _ | .str _ | .safeNone _ | .pylist _
      | .pydict _ | .box _ => exact hwf

/-- Idempotence of `sort` as a function on values: re-sorting a sorted
copy reproduces it exactly. -/
theorem dsortEntryVal_idem : ∀ (n : Nat) (v : DVal), sizeOf v ≤ n → ∀ (rev : Bool),
    dsortEntryVal rev (dsortEntryVal rev v) = dsortEntryVal rev v := by
  intro n
  induction n using Nat.strong_induction_on with
  | _ n ih =>
    intro v hn rev
    match v with
    | .null | .bool _ | .int _ | .str _ | .safeNone _ | .pydict _ | .box _ =>
      simp [dsortEntryVal]
    | .node es attrs =>
      have hsz : sizeOf es < n := by
        have : sizeOf (DVal.node es attrs) = 1 + sizeOf es + sizeOf attrs := by
          simp [DVal.node.sizeOf_spec]
        omega
      have hms : (dsortEntries rev (List.mergeSort es (pairLe rev))).mergeSort
          (pairLe rev) = dsortEntries rev (List.mergeSort es (pairLe rev)) :=
        List.mergeSort_of_sorted
          (pairwise_dsortEntries rev _ (pairwise_mergeSort_pairLe rev es))
      simp only [dsortEntryVal, dsort, hms]
      congr 1
      rw [dsortEntries_eq_map, dsortEntries_eq_map, List.map_map]
      refine List.map_congr_left (fun q hq => ?_)
      have hq2 : q ∈ es := List.mem_mergeSort.mp hq
      have h1 : sizeOf q < sizeOf es := List.sizeOf_lt_of_mem hq2
      have h2 : sizeOf q.2 ≤ sizeOf q := by
        obtain ⟨a, b⟩ := q
        simp only [Prod.mk.sizeOf_spec]
        omega
      have h3 := ih (sizeOf q.2) (by omega) q.2 (le_refl _) rev
      simp [Function.comp, h3]
    | .pylist l =>
      have hsz : sizeOf l < n := by
        have : sizeOf (DVal.pylist l) = 1 + sizeOf l := by
          simp [DVal.pylist.sizeOf_spec]
        omega
      simp only [dsortEntryVal, DVal.pylist.injEq]
      rw [dsortElems_eq_map, dsortElems_eq_map, List.map_map]
      refine List.map_congr_left (fun e he => ?_)
      have h1 : sizeOf e < sizeOf l := List.sizeOf_lt_of_mem he
      match e with
      | .node fes fattrs =>
        have h3 := ih (sizeOf (DVal.node fes fattrs)) (by omega)
          (.node fes fattrs) (le_refl _) rev
        simp only [dsortEntryVal, dsort] at h3
        simp only [Function.comp, dsort]
        exact h3
      | .null | .bool _ | .int _ | .str _ | .safeNone _ | .pylist _
      | .pydict _ | .box _ => simp [Function.comp]

/-- Frame property of the heap-level `sort`: every run only reads the
existing objects and appends fresh ones — the old heap is a prefix of
the new one — and the returned address is past the old heap. -/
theorem sortH_frame : ∀ (fuel : Nat) (rev : Bool),
    (∀ (h : Heap) (a : Nat) (h' : Heap) (a' : Nat),
       sortH rev fuel h a = some (h', a') →
       (∃ t, h'.objs = h.objs ++ t) ∧ h.objs.length ≤ a') ∧
    (∀ (h : Heap) (l : List HVal) (h' : Heap) (l' : List HVal),
       sortElemsH rev fuel h l = some (h', l') → ∃ t, h'.objs = h.objs ++ t) ∧
    (∀ (h : Heap) (v : HVal) (h' : Heap) (v' : HVal),
       sortEntryValH rev fuel h v = some (h', v') → ∃ t, h'.objs = h.objs ++ t) ∧
    (∀ (h : Heap) (L : List (String × HVal)) (h' : Heap) (L' : List (String × HVal)),
       sortEntriesH rev fuel h L = some (h', L') → ∃ t, h'.objs = h.objs ++ t) := by
  intro fuel
  induction fuel using Nat.strong_induction_on with
  | _ fuel ih =>
    intro rev
    have Hsort : ∀ (h : Heap) (a : Nat) (h' : Heap) (a' : Nat),
        sortH rev fuel h a = some (h', a') →
        (∃ t, h'.objs = h.objs ++ t) ∧ h.objs.length ≤ a' := by
      intro h a h' a' hs
      cases fuel with
      | zero => simp [sortH] at hs
      | succ m =>
        simp only [sortH] at hs
        split at hs
        · cases hs
        · split at hs
          · cases hs
          · rename_i es hget h1 es' hse
            simp only [Option.some.injEq, Prod.mk.injEq] at hs
            obtain ⟨hh, ha⟩ := hs
            subst hh
            subst ha
            rcases ((ih m (Nat.lt_succ_self m)) rev).2.2.2 h _ h1 _ hse with ⟨t, ht⟩
            refine ⟨⟨t ++ [es'], ?_⟩, ?_⟩
            · show h1.objs ++ [es'] = h.objs ++ (t ++ [es'])
              rw [ht, List.append_assoc]
            · show h.objs.length ≤ h1.objs.length
              rw [ht, List.length_append]
              omega
    have Helems : ∀ (h : Heap) (l : List HVal) (h' : Heap) (l' : List HVal),
        sortElemsH rev fuel h l = some (h', l') → ∃ t, h'.objs = h.objs ++ t := by
      intro h l
      induction l generalizing h with
      | nil =>
        intro h' l' hs
        simp only [sortElemsH, Option.some.injEq, Prod.mk.injEq] at hs
        obtain ⟨hh, -⟩ := hs
        subst hh
        exact ⟨[], by simp⟩
      | cons e tl ihl =>
        intro h' l' hs
        cases e
        case ref b =>
          simp only [sortElemsH] at hs
          cases hsb : sortH rev fuel h b with
          | none => simp [hsb] at hs
          | some pr =>
            obtain ⟨h1, b1⟩ := pr
            simp only [hsb] at hs
            cases hstl : sortElemsH rev fuel h1 tl with
            | none => simp [hstl] at hs
            | some pr2 =>
              obtain ⟨h2, tl2⟩ := pr2
              simp only [hstl, Option.some.injEq, Prod.mk.injEq] at hs
              obtain ⟨hh, -⟩ := hs
              subst hh
              rcases (Hsort h b h1 b1 hsb).1 with ⟨t1, ht1⟩
              rcases ihl h1 h2 tl2 hstl with ⟨t2, ht2⟩
              exact ⟨t1 ++ t2, by rw [ht2, ht1, List.append_assoc]⟩
        all_goals
          simp only [sortElemsH] at hs
          cases hstl : sortElemsH rev fuel h tl with
          | none => simp [hstl] at hs
          | some pr2 =>
            obtain ⟨h2, tl2⟩ := pr2
            simp only [hstl, Option.some.injEq, Prod.mk.injEq] at hs
            obtain ⟨hh, -⟩ := hs
            subst hh
            exact ihl h h2 tl2 hstl
    have Hval : ∀ (h : Heap) (v : HVal) (h' : Heap) (v' : HVal),
        sortEntryValH rev fuel h v = some (h', v') → ∃ t, h'.objs = h.objs ++ t := by
      intro h v h' v' hs
      cases v
      case ref b =>
        simp only [sortEntryValH] at hs
        cases hsb : sortH rev fuel h b with
        | none => simp [hsb] at hs
        | some pr =>
          obtain ⟨h1, b1⟩ := pr
          simp only [hsb, Option.some.injEq, Prod.mk.injEq] at hs
          obtain ⟨hh, -⟩ := hs
          subst hh
          exact (Hsort h b h1 b1 hsb).1
      case hlist l =>
        simp only [sortEntryValH] at hs
        cases hsl : sortElemsH rev fuel h l with
        | none => simp [hsl] at hs
        | some pr =>
          obtain ⟨h1, l1⟩ := pr
          simp only [hsl, Option.some.injEq, Prod.mk.injEq] at hs
          obtain ⟨hh, -⟩ := hs
          subst hh
          exact Helems h l h1 l1 hsl
      all_goals
        simp only [sortEntryValH, Option.some.injEq, Prod.mk.injEq] at hs
        obtain ⟨hh, -⟩ := hs
        subst hh
        exact ⟨[], by simp⟩
    have Hentries : ∀ (h : Heap) (L : List (String × HVal)) (h' : Heap)
        (L' : List (String × HVal)),
        sortEntriesH rev fuel h L = some (h', L') → ∃ t, h'.objs = h.objs ++ t := by
      intro h L
      induction L generalizing h with
      | nil =>
        intro h' L' hs
        simp only [sortEntriesH, Option.some.injEq, Prod.mk.injEq] at hs
        obtain ⟨hh, -⟩ := hs
        subst hh
        exact ⟨[], by simp⟩
      | cons p tl ihl =>
        intro h' L' hs
        obtain ⟨k, v⟩ := p
        simp only [sortEntriesH] at hs
        cases hsv : sortEntryValH rev fuel h v with
        | none => simp [hsv] at hs
        | some pr =>
          obtain ⟨h1, v1⟩ := pr
          simp only [hsv] at hs
          cases hstl : sortEntriesH rev fuel h1 tl with
          | none => simp [hstl] at hs
          | some pr2 =>
            obtain ⟨h2, tl2⟩ := pr2
            simp only [hstl, Option.some.injEq, Prod.mk.injEq] at hs
            obtain ⟨hh, -⟩ := hs
            subst hh
            rcases Hval h v h1 v1 hsv with ⟨t1, ht1⟩
            rcases ihl h1 h2 tl2 hstl with ⟨t2, ht2⟩
            exact ⟨t1 ++ t2, by rw [ht2, ht1, List.append_assoc]⟩
    exact ⟨Hsort, Helems, Hval, Hentries⟩

/-- Frame property of `Box(...)` allocation: it only appends objects,
and a returned reference points past the old heap. -/
theorem allocBox_frame : ∀ (n : Nat),
    (∀ (d : DVal) (h h' : Heap) (v : HVal), sizeOf d ≤ n →
       allocBoxVal h d = some (h', v) →
       (∃ t, h'.objs = h.objs ++ t) ∧ (∀ b, v = HVal.ref b → h.objs.length ≤ b)) ∧
    (∀ (L : List (String × DVal)) (h h' : Heap) (L' : List (String × HVal)),
       sizeOf L ≤ n → allocBoxEntries h L = some (h', L') →
       ∃ t, h'.objs = h.objs ++ t) ∧
    (∀ (l : List DVal) (h h' : Heap) (l' : List HVal), sizeOf l ≤ n →
       allocBoxElems h l = some (h', l') → ∃ t, h'.objs = h.objs ++ t) := by
  intro n
  induction n using Nat.strong_induction_on with
  | _ n ih =>
    have Hval : ∀ (d : DVal) (h h' : Heap) (v : HVal), sizeOf d ≤ n →
        allocBoxVal h d = some (h', v) →
        (∃ t, h'.objs = h.objs ++ t) ∧ (∀ b, v = HVal.ref b → h.objs.length ≤ b) := by
      intro d h h' v hn hs
      match d with
      | .null | .bool _ | .int _ | .str _ =>
        simp only [allocBoxVal, Option.some.injEq, Prod.mk.injEq] at hs
        obtain ⟨hh, hv⟩ := hs
        subst hh
        subst hv
        exact ⟨⟨[], by simp⟩, by intro b hb; cases hb⟩
      | .safeNone _ | .node _ _ | .box _ => simp [allocBoxVal] at hs
      | .pylist l =>
        have hsz : sizeOf l < n := by
          have : sizeOf (DVal.pylist l) = 1 + sizeOf l := by
            simp [DVal.pylist.sizeOf_spec]
          omega
        simp only [allocBoxVal] at hs
        cases hse : allocBoxElems h l with
        | none => simp [hse] at hs
        | some pr =>
          obtain ⟨h1, l1⟩ := pr
          simp only [hse, Option.some.injEq, Prod.mk.injEq] at hs
          obtain ⟨hh, hv⟩ := hs
          subst hh
          subst hv
          refine ⟨(ih (sizeOf l) hsz).2.2 l h h1 l1 (le_refl _) hse, ?_⟩
          intro b hb
          cases hb
      | .pydict es =>
        have hsz : sizeOf es < n := by
          have : sizeOf (DVal.pydict es) = 1 + sizeOf es := by
            simp [DVal.pydict.sizeOf_spec]
          omega
        simp only [allocBoxVal] at hs
        cases hse : allocBoxEntries h es with
        | none => simp [hse] at hs
        | some pr =>
          obtain ⟨h1, es1⟩ := pr
          simp only [hse, Option.some.injEq, Prod.mk.injEq] at hs
          obtain ⟨hh, hv⟩ := hs
          subst hh
          subst hv
          rcases (ih (sizeOf es) hsz).2.1 es h h1 es1 (le_refl _) hse with ⟨t, ht⟩
          refine ⟨⟨t ++ [es1], ?_⟩, ?_⟩
          · show h1.objs ++ [es1] = h.objs ++ (t ++ [es1])
            rw [ht, List.append_assoc]
          · intro b hb
            cases hb
            rw [ht, List.length_append]
            omega
    have Hentries : ∀ (L : List (String × DVal)) (h h' : Heap)
        (L' : List (String × HVal)), sizeOf L ≤ n →
        allocBoxEntries h L = some (h', L') → ∃ t, h'.objs = h.objs ++ t := by
      intro L
      induction L with
      | nil =>
        intro h h' L' hn hs
        simp only [allocBoxEntries, Option.some.injEq, Prod.mk.injEq] at hs
        obtain ⟨hh, -⟩ := hs
        subst hh
        exact ⟨[], by simp⟩
      | cons p tl ihl =>
        intro h h' L' hn hs
        obtain ⟨k, v⟩ := p
        have hsz : sizeOf v < sizeOf ((k, v) :: tl) ∧ sizeOf tl < sizeOf ((k, v) :: tl) := by
          simp only [List.cons.sizeOf_spec, Prod.mk.sizeOf_spec]
          omega
        simp only [allocBoxEntries] at hs
        cases hsv : allocBoxVal h v with
        | none => simp [hsv] at hs
        | some pr =>
          obtain ⟨h1, v1⟩ := pr
          simp only [hsv] at hs
          cases hstl : allocBoxEntries h1 tl with
          | none => simp [hstl] at hs
          | some pr2 =>
            obtain ⟨h2, tl2⟩ := pr2
            simp only [hstl, Option.some.injEq, Prod.mk.injEq] at hs
            obtain ⟨hh, -⟩ := hs
            subst hh
            rcases (Hval v h h1 v1 (by omega) hsv).1 with ⟨t1, ht1⟩
            rcases ihl h1 h2 tl2 (by omega) hstl with ⟨t2, ht2⟩
            exact ⟨t1 ++ t2, by rw [ht2, ht1, List.append_assoc]⟩
    have Helems : ∀ (l : List DVal) (h h' : Heap) (l' : List HVal), sizeOf l ≤ n →
        allocBoxElems h l = some (h', l') → ∃ t, h'.objs = h.objs ++ t := by
      intro l
      induction l with
      | nil =>
        intro h h' l' hn hs
        simp only [allocBoxElems, Option.some.injEq, Prod.mk.injEq] at hs
        obtain ⟨hh, -⟩ := hs
        subst hh
        exact ⟨[], by simp⟩
      | cons e tl ihl =>
        intro h h' l' hn hs
        have hsz : sizeOf e < sizeOf (e :: tl) ∧ sizeOf tl < sizeOf (e :: tl) := by
          simp only [List.cons.sizeOf_spec]
          omega
        simp only [allocBoxElems] at hs
        cases hsv : allocBoxVal h e with
        | none => simp [hsv] at hs
        | some pr =>
          obtain ⟨h1, e1⟩ := pr
          simp only [hsv] at hs
          cases hstl : allocBoxElems h1 tl with
          | none => simp [hstl] at hs
          | some pr2 =>
            obtain ⟨h2, tl2⟩ := pr2
            simp only [hstl, Option.some.injEq, Prod.mk.injEq] at hs
            obtain ⟨hh, -⟩ := hs
            subst hh
            rcases (Hval e h h1 e1 (by omega) hsv).1 with ⟨t1, ht1⟩
            rcases ihl h1 h2 tl2 (by omega) hstl with ⟨t2, ht2⟩
            exact ⟨t1 ++ t2, by rw [ht2, ht1, List.append_assoc]⟩
    exact ⟨Hval, Hentries, Helems⟩

/-! ### The claims -/

/--
C1 (code_bug evidence).  The claim says a chain of attribute accesses
whose segments are all missing never raises and ends in a falsy
absent value.  In the code, the first missing segment yields a
`SafeNone`, but `SafeNone.__getattr__` returns plain `None`, so the
third access in the chain is an attribute access on `None` and raises
`AttributeError`: every all-missing chain of three or more segments
raises, for any accessor and any trailing segments.
-/
theorem c1_chain_of_three_missing_raises
    (es attrs : List (String × DVal)) (s1 s2 s3 : String) (rest : List String)
    (c : Nat) (h1 : lookupA attrs s1 = none) (h2 : lookupA es s1 = none) :
    getattrChain (.node es attrs) (s1 :: s2 :: s3 :: rest) c = (.error (), c + 1) := by
  simp [getattrChain, getattrV, h1, h2]

/-- Witness: `DotAccessDict({}).a.b.c` raises (while `.a` alone is the
falsy `SafeNone` and `.a.b` the falsy `None`). -/
theorem c1_chain_of_three_missing_raises_witness :
    lookupA [] "a" = none ∧
    getattrChain (.node [] []) ["a", "b", "c"] 0 = (.error (), 1) ∧
    getattrChain (.node [] []) ["a"] 0 = (.ok (.safeNone 0), 1) ∧
    getattrChain (.node [] []) ["a", "b"] 0 = (.ok .null, 1) ∧
    pyTruthy (.safeNone 0) = false ∧ pyTruthy .null = false :=
  ⟨rfl, c1_chain_of_three_missing_raises [] [] "a" "b" "c" [] 0 rfl rfl,
   rfl, rfl, rfl, rfl⟩

/--
C2 (counterexample).  The claim says both variants keep the source
iteration order of the source mapping; but `create_ordered_box` sorts the top-level
items at construction: from the source order `b, a` it builds key order
`a, b`.
-/
theorem c2_box_sorts_at_construction :
    create_ordered_box (.pydict [("b", .int 1), ("a", .int 2)]) =
      .ok (.box [("a", .int 2), ("b", .int 1)]) ∧
    keysAt [] (.box [("a", .int 2), ("b", .int 1)]) = some ["a", "b"] ∧
    srcKeysAt [] (.pydict [("b", .int 1), ("a", .int 2)]) = some ["b", "a"] ∧
    (["a", "b"] : List String) ≠ ["b", "a"] := by
  refine ⟨?_, rfl, rfl, by decide⟩
  simp [create_ordered_box, List.mergeSort, List.merge, pairLe, keyLe, strLtB,
    boxifyEntries, boxify]

/--
C2 (amended).  The SimpleNamespace variant stores keys in the source
iteration order of the source mapping at every nesting level.  The Box variant
sorts the top-level keys at construction (`OrderedDict(sorted(...))`)
and preserves the source order at every deeper level; no other
reordering happens without an explicit sort.
-/
theorem c2_insertion_order :
    (∀ (es : List (String × DVal)) (p : List String),
       isData (.pydict es) = true →
       keysAt p (ofData (.pydict es)) = srcKeysAt p (.pydict es)) ∧
    (∀ (es : List (String × DVal)) (b : DVal),
       isData (.pydict es) = true → nodupKeysB es = true →
       create_ordered_box (.pydict es) = .ok b →
       (∃ ks, keysAt [] b = some ks ∧ chainKeysLe (keyLe false) ks = true ∧
          ks.Perm (es.map Prod.fst)) ∧
       (∀ (s : String) (p : List String),
          keysAt (s :: p) b = srcKeysAt (s :: p) (.pydict es))) := by
  constructor
  · intro es p h
    exact keysAt_convVal (sizeOf (DVal.pydict es)) (.pydict es) (le_refl _) h p
  · intro es b hd hnd hcb
    simp only [create_ordered_box, Except.ok.injEq] at hcb
    subst hcb
    have hperm : (List.mergeSort es (pairLe false)).Perm es :=
      List.mergeSort_perm es (pairLe false)
    constructor
    · refine ⟨(boxifyEntries (List.mergeSort es (pairLe false))).map Prod.fst,
        rfl, ?_, ?_⟩
      · rw [boxifyEntries_keys]
        exact chainKeysLe_of_pairwise _
          ((pairwise_mergeSort_pairLe false es).map Prod.fst (fun a b h => h))
      · rw [boxifyEntries_keys]
        exact hperm.map Prod.fst
    · intro s p
      have hlook : lookupA (List.mergeSort es (pairLe false)) s = lookupA es s :=
        (lookupA_eq_of_perm hperm.symm hnd s).symm
      simp only [keysAt, srcKeysAt, lookupA_boxifyEntries, hlook]
      cases hl : lookupA es s with
      | none => simp
      | some w =>
        simp only [Option.map_some']
        have hes : isDataEntries es = true := by simpa [isData] using hd
        exact keysAt_boxify (sizeOf w) w (le_refl _) (isData_of_lookupA hes hl) p

/-- Witness: source order `b, a` with a nested mapping below `b`. -/
theorem c2_insertion_order_witness :
    (isData (.pydict [("b", .pydict [("y", .int 1), ("x", .int 2)]), ("a", .int 3)]) = true ∧
     keysAt ["b"] (ofData (.pydict [("b", .pydict [("y", .int 1), ("x", .int 2)]), ("a", .int 3)])) =
       srcKeysAt ["b"] (.pydict [("b", .pydict [("y", .int 1), ("x", .int 2)]), ("a", .int 3)])) ∧
    (nodupKeysB [("b", DVal.pydict [("y", .int 1), ("x", .int 2)]), ("a", DVal.int 3)] = true ∧
     create_ordered_box (.pydict [("b", .pydict [("y", .int 1), ("x", .int 2)]), ("a", .int 3)]) =
       .ok (.box [("a", .int 3), ("b", .box [("y", .int 1), ("x", .int 2)])]) ∧
     keysAt ["b"] (.box [("a", .int 3), ("b", .box [("y", .int 1), ("x", .int 2)])]) =
       srcKeysAt ["b"] (.pydict [("b", .pydict [("y", .int 1), ("x", .int 2)]), ("a", .int 3)])) := by
  have hd : isData
      (.pydict [("b", .pydict [("y", .int 1), ("x", .int 2)]), ("a", .int 3)]) = true := by
    simp [isData, isDataEntries, isDataElems]
  have hcb : create_ordered_box
      (.pydict [("b", .pydict [("y", .int 1), ("x", .int 2)]), ("a", .int 3)]) =
      .ok (.box [("a", .int 3), ("b", .box [("y", .int 1), ("x", .int 2)])]) := by
    simp [create_ordered_box, List.mergeSort, List.merge, pairLe, keyLe, strLtB,
      boxifyEntries, boxify]
  refine ⟨⟨hd, c2_insertion_order.1 _ ["b"] hd⟩, rfl, hcb, ?_⟩
  exact (c2_insertion_order.2 _ _ hd rfl hcb).2 "b" []

/--
C3 (counterexample).  The claim says construction from a non-mapping
succeeds and yields an empty accessor for both variants; but
`create_ordered_box(None)` evaluates `None.items()` and raises
`AttributeError`.
-/
theorem c3_box_raises_on_null : create_ordered_box .null = .error () := rfl

/--
C3 (amended).  For every non-mapping input: the SimpleNamespace variant
builds an empty accessor without raising (`if data:` plus the
`isinstance(data, dict)` guard of `_update_from_dict`), while the Box
variant raises `AttributeError` from `data.items()`.
-/
theorem c3_nonmapping_input (d : DVal) (h : isPydictB d = false) :
    ofData d = .node [] [] ∧ dKeys (ofData d) = [] ∧
    create_ordered_box d = .error () := by
  cases d <;> simp_all [isPydictB, ofData, dKeys, create_ordered_box]

/-- Witness: the scalar `None` as constructor input. -/
theorem c3_nonmapping_input_witness :
    isPydictB .null = false ∧
    (ofData .null = .node [] [] ∧ dKeys (ofData .null) = [] ∧
     create_ordered_box .null = .error ()) :=
  ⟨rfl, c3_nonmapping_input .null rfl⟩

/--
C4.  Accessor equality is order-sensitive and recursive: two
`DotAccessDict`s compare equal iff their ordered `(key, value)`
sequences are element-wise equal (keys as strings, values by Python
`==`, which recurses into nested accessors); comparing an accessor with
any non-accessor value yields `False` in both directions (and never
raises — the embedded comparison is total); and the two accessors built
from `{a: 1, b: 2}` and `{b: 2, a: 1}` are not equal.
-/
theorem c4_equality_semantics :
    (∀ (es attrs fs battrs : List (String × DVal)),
       pyEq (.node es attrs) (.node fs battrs) = true ↔
       List.Forall₂ (fun p q : String × DVal => p.1 = q.1 ∧ pyEq p.2 q.2 = true) es fs) ∧
    (∀ (es attrs : List (String × DVal)) (v : DVal), isNodeB v = false →
       pyEq (.node es attrs) v = false ∧ pyEq v (.node es attrs) = false) ∧
    pyEq (ofData (.pydict [("a", .int 1), ("b", .int 2)]))
      (ofData (.pydict [("b", .int 2), ("a", .int 1)])) = false := by
  refine ⟨?_, ?_, ?_⟩
  · intro es attrs fs battrs
    simpa [pyEq] using itemsEq_iff es fs
  · intro es attrs v hv
    cases v <;> simp [isNodeB] at hv <;> simp [pyEq]
  · simp [ofData, convEntries, convVal, pyEq, itemsEq]

/-- Witness: the non-accessor operand `42`. -/
theorem c4_equality_semantics_witness :
    isNodeB (.int 42) = false ∧
    (pyEq (.node [("a", DVal.int 1)] []) (.int 42) = false ∧
     pyEq (.int 42) (.node [("a", DVal.int 1)] []) = false) :=
  ⟨rfl, c4_equality_semantics.2.1 [("a", .int 1)] [] (.int 42) rfl⟩

/--
C5 (counterexample).  The claim says sequence-valued entries have their
accessor-typed elements recursively sorted "and all other elements
carried over as-is".  The sort of the Box variant (`sort_nested_dictionary`,
applied by `sort_ordered_box` to the unboxed tree) recurses into every
sequence element: a nested sequence element is rebuilt with the
mappings inside it sorted, so it is not carried over as-is.
-/
theorem c5_box_sort_rebuilds_nested_sequences :
    sort_nested_dictionary
        (.pydict [("k", .pylist [.pylist [.pydict [("b", .int 1), ("a", .int 2)]]])]) =
      .pydict [("k", .pylist [.pylist [.pydict [("a", .int 2), ("b", .int 1)]]])] ∧
    DVal.pylist [.pydict [("a", DVal.int 2), ("b", DVal.int 1)]] ≠
      DVal.pylist [.pydict [("b", DVal.int 1), ("a", DVal.int 2)]] := by
  constructor
  · simp [sort_nested_dictionary, sndEntries, sndElems, List.mergeSort, List.merge,
      pairLe, keyLe, strLtB]
    decide
  · simp

/--
C5 (amended).  With no comparator: (i) the SimpleNamespace `sort`
returns an accessor whose entries, at every accessor nesting level, are
ordered by the lexicographic string order of the keys — `keyLe false a b`
is `¬ (b < a)`, i.e. `a ≤ b` — and in the inverted order when `reverse`
is set; (ii) its sequence-valued entries keep their element order, with
`DotAccessDict` elements recursively sorted and every other element
(nested sequences included) carried over as-is; (iii) the Box variant
function `sort_nested_dictionary` sorts every plain-dict level ascending, and
(iv) rebuilds sequences element-wise in order, recursing into every
element (so nested sequences are rebuilt too, with their inner mappings
sorted — the one point where the original claim fails).
-/
theorem c5_sort_orders_every_level :
    (∀ (rev : Bool) (es attrs : List (String × DVal)),
       accSorted (keyLe rev) (dsort rev (.node es attrs)) = true) ∧
    (∀ (rev : Bool) (l : List DVal),
       dsort rev (.pylist l) = .pylist l ∧
       dsortEntryVal rev (.pylist l) = .pylist (dsortElems rev l) ∧
       dsortElems rev l = l.map (fun e =>
         match e with
         | .node es attrs => dsort rev (.node es attrs)
         | _ => e)) ∧
    (∀ v : DVal, dictSorted (keyLe false) (sort_nested_dictionary v) = true) ∧
    (∀ l : List DVal, sort_nested_dictionary (.pylist l) = .pylist (sndElems l) ∧
       sndElems l = l.map sort_nested_dictionary) := by
  refine ⟨?_, ?_, ?_, ?_⟩
  · intro rev es attrs
    have h := accSorted_dsortEntryVal (sizeOf (DVal.node es attrs))
      (.node es attrs) (le_refl _) rev
    simpa [dsortEntryVal] using h
  · intro rev l
    exact ⟨by simp [dsort], by simp [dsortEntryVal], dsortElems_eq_map rev l⟩
  · intro v
    exact dictSorted_snd (sizeOf v) v (le_refl _)
  · intro l
    exact ⟨by simp [sort_nested_dictionary], sndElems_eq_map l⟩

/--
C6.  Both sorts return a brand-new accessor instance and never touch
the source object graph: on the heap model, every successful run of
`DotAccessDict.sort` (any `reverse`, any recursion budget) and of
`sort_ordered_box` leaves every pre-existing address — the source
accessor and all accessors nested anywhere below it, with their keys,
values and key order — exactly as it was, and returns an address past
the old heap, i.e. a freshly allocated object.
-/
theorem c6_sort_frame :
    (∀ (rev : Bool) (fuel : Nat) (h : Heap) (a : Nat) (h' : Heap) (a' : Nat),
       sortH rev fuel h a = some (h', a') →
       (∀ b, b < h.objs.length → h'.objs[b]? = h.objs[b]?) ∧
       h.objs.length ≤ a') ∧
    (∀ (fuel : Nat) (h : Heap) (a : Nat) (h' : Heap) (a' : Nat),
       sort_ordered_boxH fuel h a = some (h', a') →
       (∀ b, b < h.objs.length → h'.objs[b]? = h.objs[b]?) ∧
       h.objs.length ≤ a') := by
  constructor
  · intro rev fuel h a h' a' hs
    rcases (sortH_frame fuel rev).1 h a h' a' hs with ⟨⟨t, ht⟩, hlen⟩
    refine ⟨?_, hlen⟩
    intro b hb
    rw [ht]
    exact List.getElem?_append_left hb
  · intro fuel h a h' a' hs
    simp only [sort_ordered_boxH] at hs
    split at hs
    · cases hs
    · rename_i d htd
      split at hs
      · rename_i h1 b hab
        simp only [Option.some.injEq, Prod.mk.injEq] at hs
        obtain ⟨hh, hbeq⟩ := hs
        subst hh
        subst hbeq
        rcases (allocBox_frame (sizeOf (sort_nested_dictionary d))).1
          _ h h1 _ (le_refl _) hab with ⟨⟨t, ht⟩, href⟩
        refine ⟨?_, href b rfl⟩
        intro b2 hb2
        rw [ht]
        exact List.getElem?_append_left hb2
      · cases hs

/-- Witness: a two-object heap for the SimpleNamespace variant (the
source accessor holding a nested accessor) and a one-object heap for
the Box variant; in both runs the old addresses are unchanged and the
result address is fresh. -/
theorem c6_sort_frame_witness :
    (sortH false 3 ⟨[[("b", .hint 2), ("a", .ref 1)], [("d", .hnull)]]⟩ 0 =
       some (⟨[[("b", HVal.hint 2), ("a", HVal.ref 1)], [("d", HVal.hnull)],
               [("d", HVal.hnull)], [("a", HVal.ref 2), ("b", HVal.hint 2)]]⟩, 3) ∧
     ((∀ b, b < (Heap.mk [[("b", .hint 2), ("a", .ref 1)], [("d", .hnull)]]).objs.length →
        (Heap.mk [[("b", HVal.hint 2), ("a", HVal.ref 1)], [("d", HVal.hnull)],
                  [("d", HVal.hnull)], [("a", HVal.ref 2), ("b", HVal.hint 2)]]).objs[b]? =
        (Heap.mk [[("b", .hint 2), ("a", .ref 1)], [("d", .hnull)]]).objs[b]?) ∧
      (Heap.mk [[("b", .hint 2), ("a", .ref 1)], [("d", .hnull)]]).objs.length ≤ 3)) ∧
    (sort_ordered_boxH 3 ⟨[[("b", .hint 1), ("a", .hint 2)]]⟩ 0 =
       some (⟨[[("b", HVal.hint 1), ("a", HVal.hint 2)],
               [("a", HVal.hint 2), ("b", HVal.hint 1)]]⟩, 1) ∧
     ((∀ b, b < (Heap.mk [[("b", .hint 1), ("a", .hint 2)]]).objs.length →
        (Heap.mk [[("b", HVal.hint 1), ("a", HVal.hint 2)],
                  [("a", HVal.hint 2), ("b", HVal.hint 1)]]).objs[b]? =
        (Heap.mk [[("b", .hint 1), ("a", .hint 2)]]).objs[b]?) ∧
      (Heap.mk [[("b", .hint 1), ("a", .hint 2)]]).objs.length ≤ 1)) := by
  have h1 : sortH false 3 ⟨[[("b", .hint 2), ("a", .ref 1)], [("d", .hnull)]]⟩ 0 =
      some (⟨[[("b", HVal.hint 2), ("a", HVal.ref 1)], [("d", HVal.hnull)],
              [("d", HVal.hnull)], [("a", HVal.ref 2), ("b", HVal.hint 2)]]⟩, 3) := by
    simp +decide [sortH, sortEntriesH, sortEntryValH, sortElemsH, List.mergeSort,
      List.merge, hPairLe, keyLe, strLtB]
  have h2 : sort_ordered_boxH 3 ⟨[[("b", .hint 1), ("a", .hint 2)]]⟩ 0 =
      some (⟨[[("b", HVal.hint 1), ("a", HVal.hint 2)],
              [("a", HVal.hint 2), ("b", HVal.hint 1)]]⟩, 1) := by
    simp +decide [sort_ordered_boxH, toDictValH, toDictEntriesH, toDictElemsH,
      sort_nested_dictionary, sndEntries, sndElems, allocBoxVal, allocBoxEntries,
      allocBoxElems, List.mergeSort, List.merge, pairLe, keyLe, strLtB]
  exact ⟨⟨h1, c6_sort_frame.1 false 3 _ 0 _ 3 h1⟩,
         ⟨h2, c6_sort_frame.2 3 _ 0 _ 1 h2⟩⟩

/--
C7.  Sort is idempotent up to the order-sensitive recursive accessor
equality: for every well-formed accessor (unique keys in each plain
dict, as Python guarantees), `sort(sort(x)) == sort(x)` — in fact the
two sorted copies are structurally identical, and `==` is reflexive on
well-formed values.
-/
theorem c7_sort_idempotent (rev : Bool) (es attrs : List (String × DVal))
    (h : wfVal (.node es attrs) = true) :
    pyEq (dsort rev (dsort rev (.node es attrs)))
      (dsort rev (.node es attrs)) = true := by
  have h1 := dsortEntryVal_idem (sizeOf (DVal.node es attrs))
    (.node es attrs) (le_refl _) rev
  simp only [dsortEntryVal, dsort] at h1
  have h2 := wf_dsortEntryVal (sizeOf (DVal.node es attrs))
    (.node es attrs) (le_refl _) rev h
  simp only [dsortEntryVal, dsort] at h2
  simp only [dsort]
  rw [h1]
  exact pyEq_refl (sizeOf (DVal.node (dsortEntries rev
    (List.mergeSort es (pairLe rev))) [])) _ (le_refl _) h2

/-- Witness: the out-of-order two-key accessor. -/
theorem c7_sort_idempotent_witness :
    wfVal (.node [("b", DVal.int 1), ("a", DVal.int 2)] []) = true ∧
    pyEq (dsort false (dsort false (.node [("b", DVal.int 1), ("a", DVal.int 2)] [])))
      (dsort false (.node [("b", DVal.int 1), ("a", DVal.int 2)] [])) = true := by
  have hw : wfVal (.node [("b", DVal.int 1), ("a", DVal.int 2)] []) = true := by
    simp [wfVal, wfEntries, wfElems, nodupKeysB, lookupA]
  exact ⟨hw, c7_sort_idempotent false _ _ hw⟩

/--
C8.  After `x.p = v` the value is stored verbatim in the instance
`__dict__` (no wrapping), shadowing any prior binding of `p`, and an
immediately following access `x.p` returns exactly `v` — whatever the
prior store and attributes held.
-/
theorem c8_assign_then_read (es attrs : List (String × DVal)) (p : String)
    (v : DVal) (c : Nat) :
    getattrV (pySetattr (.node es attrs) p v) p c = (.ok v, c) := by
  simp [pySetattr, getattrV, lookupA_setA_self]

/--
C9 (counterexample).  Two absent-value results obtained from two
missing-path accesses are two distinct `SafeNone` instances, and
`SafeNone` inherits identity-based `object.__eq__`, so they do NOT
compare equal.
-/
theorem c9_distinct_safenones_not_equal :
    getattrV (.node [] []) "a" 0 = (.ok (.safeNone 0), 1) ∧
    getattrV (.node [] []) "b" 1 = (.ok (.safeNone 1), 2) ∧
    pyEq (.safeNone 0) (.safeNone 1) = false := by
  refine ⟨rfl, rfl, ?_⟩
  simp [pyEq]

/--
C9 (amended).  All `SafeNone` instances are behaviourally
interchangeable — attribute access on any of them returns `None`, they
are all falsy and all print as "None" — but `==` between them is
default identity equality: it holds exactly for one and the same
instance.
-/
theorem c9_safenone_interchangeable (i j : Nat) (s : String) (c : Nat) :
    getattrV (.safeNone i) s c = getattrV (.safeNone j) s c ∧
    pyTruthy (.safeNone i) = false ∧
    safeNoneStr i = safeNoneStr j ∧
    (pyEq (.safeNone i) (.safeNone j) = true ↔ i = j) := by
  refine ⟨rfl, rfl, rfl, ?_⟩
  simp [pyEq]

/--
C10.  Attribute assignment on a `DotAccessDict` writes the instance
`__dict__` only (there is no `__setattr__`), so for any attribute name
other than the internal slots, `keys()`, `items()` and `values()` are
unchanged, equality comparison in either direction is unchanged, and
`sort` produces the same result as before the assignment.
-/
theorem c10_assignment_invisible (es attrs : List (String × DVal)) (p : String)
    (v : DVal) (rev : Bool) (y : DVal)
    (h1 : p ≠ "_data") (h2 : p ≠ "_namespace") :
    dKeys (pySetattr (.node es attrs) p v) = dKeys (.node es attrs) ∧
    dItems (pySetattr (.node es attrs) p v) = dItems (.node es attrs) ∧
    dValues (pySetattr (.node es attrs) p v) = dValues (.node es attrs) ∧
    pyEq (pySetattr (.node es attrs) p v) y = pyEq (.node es attrs) y ∧
    pyEq y (pySetattr (.node es attrs) p v) = pyEq y (.node es attrs) ∧
    dsort rev (pySetattr (.node es attrs) p v) = dsort rev (.node es attrs) := by
  refine ⟨rfl, rfl, rfl, ?_, ?_, ?_⟩
  · cases y <;> simp [pySetattr, pyEq]
  · cases y <;> simp [pySetattr, pyEq]
  · simp [pySetattr, dsort]

/-- Witness: a fresh key assigned next to an existing store. -/
theorem c10_assignment_invisible_witness :
    "x" ≠ "_data" ∧ "x" ≠ "_namespace" ∧
    (dKeys (pySetattr (.node [("a", .int 1)] []) "x" (.int 2)) =
       dKeys (.node [("a", .int 1)] []) ∧
     dItems (pySetattr (.node [("a", .int 1)] []) "x" (.int 2)) =
       dItems (.node [("a", .int 1)] []) ∧
     dValues (pySetattr (.node [("a", .int 1)] []) "x" (.int 2)) =
       dValues (.node [("a", .int 1)] []) ∧
     pyEq (pySetattr (.node [("a", .int 1)] []) "x" (.int 2)) (.node [("a", .int 1)] []) =
       pyEq (.node [("a", .int 1)] []) (.node [("a", .int 1)] []) ∧
     pyEq (.node [("a", .int 1)] []) (pySetattr (.node [("a", .int 1)] []) "x" (.int 2)) =
       pyEq (.node [("a", .int 1)] []) (.node [("a", .int 1)] []) ∧
     dsort false (pySetattr (.node [("a", .int 1)] []) "x" (.int 2)) =
       dsort false (.node [("a", .int 1)] [])) :=
  ⟨by decide, by decide,
   c10_assignment_invisible [("a", .int 1)] [] "x" (.int 2) false
     (.node [("a", .int 1)] []) (by decide) (by decide)⟩

end YamlDot
